import Mathlib

set_option maxRecDepth 8000

/-!
Verification of the bashmarks catalog-search utility (src/main.py,
src/cli/neosearch.py, src/server/neosearch.py) against its specification.

The Python code is shallowly embedded: Python dicts become association
lists (`List (String × _)`), Python strings become Lean `String`/`List Char`
(ASCII scope), `re.findall`/`str.replace`/`str.strip` are modelled
character-by-character, `json.dumps(-, sort_keys=True)` and `hashlib.md5`
are implemented over an explicit JSON value type, and the two interactive
REPL loops become explicit step functions on session-state records.
-/

namespace Bashmarks

/-! ## Basic string machinery (Python string operations, ASCII scope) -/

/-- Whitespace test used by Python `str.strip` (ASCII scope). -/
def isSpace (c : Char) : Bool := c.isWhitespace

/-- Python `str.strip` on a character list: drop whitespace from both ends. -/
def stripL (l : List Char) : List Char :=
  ((l.dropWhile isSpace).reverse.dropWhile isSpace).reverse

/-- Python `str.strip`. -/
def pyStrip (s : String) : String := String.mk (stripL s.data)

/-- Python substring test `pat in l` on character lists. -/
def listContains (l pat : List Char) : Bool :=
  l.tails.any (fun suf => pat.isPrefixOf suf)

/-- Python `str.lower` (ASCII scope). -/
def lowerL (l : List Char) : List Char := l.map Char.toLower

/-- Python `needle.lower() in hay.lower()`. -/
def strInLower (needle hay : String) : Bool :=
  listContains (lowerL hay.data) (lowerL needle.data)

/-- One step of Python `str.replace(pat, "")`: fuel-indexed removal of every
occurrence of `pat` (leftmost, non-overlapping), as `str.replace` does. -/
def replaceAllAux : Nat → List Char → List Char → List Char
  | 0, s, _ => s
  | _ + 1, [], _ => []
  | fuel + 1, c :: t, pat =>
    if pat.isPrefixOf (c :: t) ∧ pat ≠ [] then
      replaceAllAux fuel ((c :: t).drop pat.length) pat
    else
      c :: replaceAllAux fuel t pat

/-- Python `s.replace(pat, "")` for non-empty `pat`. -/
def replaceAll (s pat : List Char) : List Char :=
  replaceAllAux s.length s pat

/-- Decimal value of a digit list. -/
def digitsToNat (l : List Char) : Nat :=
  l.foldl (fun acc c => 10 * acc + (c.toNat - 48)) 0

/-- Python `int(s)` for an optional minus sign followed by digits
(ASCII scope; surrounding whitespace not modelled): `none` models the
`ValueError` raised on anything else. -/
def parseInt (s : String) : Option Int :=
  match s.data with
  | [] => none
  | '-' :: ds =>
    if ds ≠ [] ∧ ds.all Char.isDigit then some (-(Int.ofNat (digitsToNat ds)))
    else none
  | ds =>
    if ds.all Char.isDigit then some (Int.ofNat (digitsToNat ds)) else none

/-- Python `list.pop(i)` with negative-index support: `none` models the
`IndexError` raised when the index is out of range. -/
def pyPop (l : List α) (i : Int) : Option (α × List α) :=
  let n : Int := Int.ofNat l.length
  let j : Int := if i < 0 then i + n else i
  if 0 ≤ j ∧ j < n then
    let k := j.toNat
    match l.get? k with
    | some x => some (x, l.take k ++ l.drop (k + 1))
    | none => none
  else none

/-! ## Python dicts as insertion-ordered association lists -/

/-- Python `d[k]` / `d.get(k)`: value at the first (unique) occurrence of
`k`. -/
def dictGet : List (String × α) → String → Option α
  | [], _ => none
  | (k0, v0) :: t, k => if k0 == k then some v0 else dictGet t k

/-- Python `d[k] = v`: update in place if present, else append (insertion
order preserved, as for Python dicts). -/
def dictInsert (d : List (String × α)) (k : String) (v : α) : List (String × α) :=
  match d with
  | [] => [(k, v)]
  | (k0, v0) :: t =>
    if k0 == k then (k0, v) :: t else (k0, v0) :: dictInsert t k v

/-- Python `k in d`. -/
def dictHas (d : List (String × α)) (k : String) : Bool :=
  (dictGet d k).isSome

/-- A successful lookup comes from a pair of the dict. -/
theorem dictGet_some_mem (d : List (String × α)) (k : String) (v : α)
    (h : dictGet d k = some v) : ∃ p ∈ d, p.1 = k ∧ p.2 = v := by
  induction d with
  | nil => exact Option.noConfusion h
  | cons p t ih =>
    obtain ⟨k0, v0⟩ := p
    by_cases hk : k0 == k
    · rw [dictGet, if_pos hk] at h
      exact ⟨(k0, v0), List.mem_cons_self _ _,
        beq_iff_eq.mp hk, Option.some.inj h⟩
    · rw [dictGet, if_neg hk] at h
      obtain ⟨p, hp, h1, h2⟩ := ih h
      exact ⟨p, List.mem_cons_of_mem _ hp, h1, h2⟩

/-! ## Catalog entries (src data model)

A catalog entry is a parsed-JSON object whose values, in the scope of this
development, are strings or lists of strings (url, description, category,
tags, stamped repository). -/

/-- A JSON value stored in a catalog entry. -/
inductive Value where
  | vstr (s : String)
  | vlist (l : List String)
  deriving DecidableEq, Repr

/-- A catalog entry: a Python dict from field name to value. -/
abbrev Entry := List (String × Value)

/-- The single-quote character, used by Python `str` of a list. -/
def sq : Char := Char.ofNat 39

/-- Python `str(v)`: a string renders as itself; a list renders as its
`repr`, e.g. `['a', 'b']` (quote-escaping inside elements not modelled). -/
def pyStr (v : Value) : String :=
  match v with
  | .vstr s => s
  | .vlist l =>
    "[" ++ String.intercalate ", " (l.map (fun t => String.mk (sq :: t.data ++ [sq]))) ++ "]"

/-- Python `for tag in entry[field]`: iterating a list yields its elements;
iterating a string yields its characters as one-character strings. -/
def pyElems (v : Option Value) : List String :=
  match v with
  | some (.vlist l) => l
  | some (.vstr s) => s.data.map (fun c => String.mk [c])
  | none => []

/-- Python truthiness of an `Optional[str]` argument (`None` and `""` falsy). -/
def pyTruthy (o : Option String) : Bool :=
  match o with
  | none => false
  | some s => !s.isEmpty

/-! ## Filter Engine (src/cli/neosearch.py `filter_data`, src/main.py
`filter_data`, and the inline filter of src/server/neosearch.py `search`) -/

/-- Does an entry match in the `field == "tags"` branch:
`field in entry and any(keyword.lower() in tag.lower() for tag in entry[field])`. -/
def tagsMatch (e : Entry) (fld kw : String) : Bool :=
  dictHas e fld && (pyElems (dictGet e fld)).any (fun tag => strInLower kw tag)

/-- Does an entry match in the scoped-field branch:
`field in entry and keyword.lower() in str(entry[field]).lower()`. -/
def fieldMatch (e : Entry) (fld kw : String) : Bool :=
  dictHas e fld &&
    (match dictGet e fld with
     | some v => strInLower kw (pyStr v)
     | none => false)

/-- Does an entry match the global scan:
`any(keyword.lower() in str(entry[f]).lower() for f in entry)`. -/
def globalMatch (e : Entry) (kw : String) : Bool :=
  e.any (fun kv => strInLower kw (pyStr kv.2))

/-- The keyword/field stage shared verbatim between `filter_data` and the
server `search` route. -/
def keywordStage (data : List Entry) (keyword field : Option String) : List Entry :=
  if pyTruthy keyword && pyTruthy field then
    let kw := keyword.getD ""
    let fld := field.getD ""
    if fld == "tags" then
      data.filter (fun e => tagsMatch e fld kw)
    else
      data.filter (fun e => fieldMatch e fld kw)
  else if pyTruthy keyword then
    data.filter (fun e => globalMatch e (keyword.getD ""))
  else data

/-- The repository stage: `entry.get("repository") == repository`. -/
def repoStage (data : List Entry) (repository : Option String) : List Entry :=
  if pyTruthy repository then
    data.filter (fun e => dictGet e "repository" == some (Value.vstr (repository.getD "")))
  else data

/-- src/cli/neosearch.py `filter_data(data, keyword, repository, field)`. -/
def filter_data (data : List Entry) (keyword repository field : Option String) :
    List Entry :=
  repoStage (keywordStage data keyword field) repository

/-- src/main.py `filter_data(data, keyword)` (global keyword scan only). -/
def filter_data_main (data : List Entry) (keyword : String) : List Entry :=
  if !keyword.isEmpty then data.filter (fun e => globalMatch e keyword) else data

/-! ## Entry loading (src/cli/neosearch.py `main`, loading stage)

Sources are modelled as the already-parsed content of each configured
repository: a list of `(identifier, entries)` pairs (invalid repositories,
which the loader skips, are simply absent). The loader stamps
`entry["repository"] = identifier` on every entry. -/

/-- Stamp the source identifier on one entry: `entry["repository"] = path`. -/
def stampRepo (e : Entry) (path : String) : Entry :=
  dictInsert e "repository" (.vstr path)

/-- src/cli/neosearch.py `main` load loop: concatenate all sources, stamping
each entry with its source identifier. -/
def cliLoadAll (sources : List (String × List Entry)) : List Entry :=
  sources.foldl (fun acc src => acc ++ src.2.map (fun e => stampRepo e src.1)) []

/-- src/server/neosearch.py `search`: per-repository keyword/field filter
followed by the repository-equality filter, concatenated over the configured
repositories. `env` models the filesystem: the parsed entry list of each
valid repository (`none` = invalid, skipped). Note the server path performs
no stamping of `entry["repository"]`. -/
def serverSearch (env : String → Option (List Entry)) (config : List String)
    (keyword repository field : Option String) : List Entry :=
  config.foldl
    (fun results repo =>
      match env repo with
      | none => results
      | some data => results ++ repoStage (keywordStage data keyword field) repository)
    []

/-! ## Query Parser (src/cli/neosearch.py and src/main.py `parse_query`)

The regular expression is `(\w+)="([^"]+)"`. Backtracking is degenerate for
this pattern: at a given start position it matches exactly when a maximal
non-empty run of word characters is followed by `="`, a non-empty run of
non-quote characters, and a closing quote. `findAllMatches` models
`re.findall`: scan left to right, resuming after each match. -/

/-- Python `\w` (ASCII scope): letters, digits, underscore. -/
def isWordChar (c : Char) : Bool := c.isAlphanum || c == '_'

/-- The double-quote character. -/
def dq : Char := '"'

/-- Try to match `(\w+)="([^"]+)"` anchored at the head of `l`; on success
return the two capture groups and the remainder after the match. -/
def tryMatch (l : List Char) : Option (String × String × List Char) :=
  let w := l.takeWhile isWordChar
  if w = [] then none
  else
    match l.drop w.length with
    | '=' :: c :: rest1 =>
      if c = dq then
        let v := rest1.takeWhile (fun d => d ≠ dq)
        if v = [] then none
        else
          match rest1.drop v.length with
          | d :: rest2 => if d = dq then some (String.mk w, String.mk v, rest2) else none
          | [] => none
      else none
    | _ => none

/-- `re.findall` scan, fuel-indexed (each step consumes at least one
character, so fuel = length of the scanned text suffices). -/
def findAllAux : Nat → List Char → List (String × String)
  | 0, _ => []
  | fuel + 1, l =>
    match tryMatch l with
    | some (f, v, rest) => (f, v) :: findAllAux fuel rest
    | none =>
      match l with
      | [] => []
      | _ :: t => findAllAux fuel t

/-- `re.findall(r'(\w+)="([^"]+)"', query)`. -/
def findAllMatches (query : String) : List (String × String) :=
  findAllAux query.data.length query.data

/-- The literal text `f'{field}="{value}"'` of a match. -/
def tokenText (f v : String) : List Char :=
  f.data ++ '=' :: dq :: v.data ++ [dq]

/-- `parse_query(query)` (identical in src/main.py and src/cli/neosearch.py):
build the filters dict from the matches (last-seen-wins), then compute the
residual by, for each match, replacing every occurrence of its literal token
text with the empty string and stripping surrounding whitespace. When there
are no matches the residual is the query itself, unstripped. -/
def parse_query (query : String) : List (String × String) × String :=
  let ms := findAllMatches query
  let filters := ms.foldl (fun d m => dictInsert d m.1 m.2) []
  let residual := ms.foldl
    (fun r m => String.mk (stripL (replaceAll r.data (tokenText m.1 m.2)))) query
  (filters, residual)

/-! ## Parsed JSON documents (src/server/neosearch.py)

General parsed-JSON data for the change detector: strings, integers,
arrays, objects (mutual inductive so that all recursions are structural;
booleans/null/floats are outside the modelled scope). -/

mutual

inductive Json where
  | str (s : String)
  | num (n : Int)
  | arr (xs : JArr)
  | obj (kvs : JObj)
  deriving DecidableEq

inductive JArr where
  | nil
  | cons (hd : Json) (tl : JArr)
  deriving DecidableEq

inductive JObj where
  | nil
  | cons (key : String) (val : Json) (tl : JObj)
  deriving DecidableEq

end

/-- Code-point lexicographic order on character lists: the order Python uses
to compare strings (and hence the order of `sorted` / `sort_keys=True`). -/
def lexLe : List Char → List Char → Bool
  | [], _ => true
  | _ :: _, [] => false
  | a :: as, b :: bs =>
    if a.toNat < b.toNat then true
    else if b.toNat < a.toNat then false
    else lexLe as bs

/-- Python string `<=` (code-point lexicographic). -/
def strLe (a b : String) : Bool := lexLe a.data b.data

/-- Insert a key-value pair into an object sorted by key (before any equal
key). -/
def objInsert (k : String) (v : Json) : JObj → JObj
  | .nil => .cons k v .nil
  | .cons k0 v0 t =>
    if strLe k k0 then .cons k v (.cons k0 v0 t)
    else .cons k0 v0 (objInsert k v t)

/-- Insertion sort of an object's pairs by key: the effect of
`sort_keys=True` at one object node. -/
def objSort : JObj → JObj
  | .nil => .nil
  | .cons k v t => objInsert k v (objSort t)

mutual

/-- Canonicalize key order: recursively sort every object's keys. -/
def canon : Json → Json
  | .str s => .str s
  | .num n => .num n
  | .arr xs => .arr (canonArr xs)
  | .obj kvs => .obj (objSort (canonObj kvs))

/-- Canonicalize each element of an array. -/
def canonArr : JArr → JArr
  | .nil => .nil
  | .cons x t => .cons (canon x) (canonArr t)

/-- Canonicalize each value of an object (keys and order untouched). -/
def canonObj : JObj → JObj
  | .nil => .nil
  | .cons k v t => .cons k (canon v) (canonObj t)

end

/-- JSON string literal: double-quoted with `\` and `"` escaped (the escapes
relevant in this development's scope). -/
def escChar (c : Char) : List Char :=
  if c = dq ∨ c = '\\' then ['\\', c] else [c]

/-- Escape a character list. -/
def escL : List Char → List Char
  | [] => []
  | c :: t => escChar c ++ escL t

/-- Serialize a string as a JSON string literal. -/
def quoteStr (s : String) : String :=
  String.mk (dq :: escL s.data ++ [dq])

mutual

/-- Serializer with the default `json.dumps` separators `", "` and `": "`,
emitting object pairs in the order given. -/
def dumpsPlain : Json → String
  | .str s => quoteStr s
  | .num n => toString n
  | .arr xs => "[" ++ dumpArr xs ++ "]"
  | .obj kvs => "\x7b" ++ dumpObjRaw kvs ++ "\x7d"

/-- Serialize array elements joined by `", "`. -/
def dumpArr : JArr → String
  | .nil => ""
  | .cons x .nil => dumpsPlain x
  | .cons x (.cons y t) => dumpsPlain x ++ ", " ++ dumpArr (.cons y t)

/-- Serialize object pairs, in the order given, joined by `", "`. -/
def dumpObjRaw : JObj → String
  | .nil => ""
  | .cons k v .nil => quoteStr k ++ ": " ++ dumpsPlain v
  | .cons k v (.cons k2 v2 t) =>
    quoteStr k ++ ": " ++ dumpsPlain v ++ ", " ++ dumpObjRaw (.cons k2 v2 t)

end

/-- `json.dumps(data, sort_keys=True)`: `sort_keys=True` emits every object
with its keys sorted, i.e. the plain serializer applied to the key-order
canonicalization. -/
def dumps (d : Json) : String := dumpsPlain (canon d)

/-! ## MD5 (hashlib.md5, as used by src/server/neosearch.py `get_repo_hash`)

RFC 1321 MD5 over a byte list, with 32-bit words as `Nat` reduced modulo
`2^32`. The digest is packed little-endian into a single `Nat < 2^128`
(the integer whose byte expansion is `hexdigest()`'s byte sequence). -/

/-- `2^32`. -/
def w32 : Nat := 4294967296

/-- 32-bit bitwise complement. -/
def not32 (x : Nat) : Nat := 4294967295 - (x % w32)

/-- 32-bit left rotation. -/
def rotl32 (x s : Nat) : Nat := (((x <<< s) % w32) ||| ((x % w32) >>> (32 - s)))

/-- The 64 MD5 sine-derived constants (RFC 1321). -/
def md5K : List Nat :=
  [0xd76aa478, 0xe8c7b756, 0x242070db, 0xc1bdceee,
   0xf57c0faf, 0x4787c62a, 0xa8304613, 0xfd469501,
   0x698098d8, 0x8b44f7af, 0xffff5bb1, 0x895cd7be,
   0x6b901122, 0xfd987193, 0xa679438e, 0x49b40821,
   0xf61e2562, 0xc040b340, 0x265e5a51, 0xe9b6c7aa,
   0xd62f105d, 0x02441453, 0xd8a1e681, 0xe7d3fbc8,
   0x21e1cde6, 0xc33707d6, 0xf4d50d87, 0x455a14ed,
   0xa9e3e905, 0xfcefa3f8, 0x676f02d9, 0x8d2a4c8a,
   0xfffa3942, 0x8771f681, 0x6d9d6122, 0xfde5380c,
   0xa4beea44, 0x4bdecfa9, 0xf6bb4b60, 0xbebfbc70,
   0x289b7ec6, 0xeaa127fa, 0xd4ef3085, 0x04881d05,
   0xd9d4d039, 0xe6db99e5, 0x1fa27cf8, 0xc4ac5665,
   0xf4292244, 0x432aff97, 0xab9423a7, 0xfc93a039,
   0x655b59c3, 0x8f0ccc92, 0xffeff47d, 0x85845dd1,
   0x6fa87e4f, 0xfe2ce6e0, 0xa3014314, 0x4e0811a1,
   0xf7537e82, 0xbd3af235, 0x2ad7d2bb, 0xeb86d391]

/-- The 64 MD5 per-round left-rotation amounts (RFC 1321). -/
def md5S : List Nat :=
  [7, 12, 17, 22, 7, 12, 17, 22, 7, 12, 17, 22, 7, 12, 17, 22,
   5, 9, 14, 20, 5, 9, 14, 20, 5, 9, 14, 20, 5, 9, 14, 20,
   4, 11, 16, 23, 4, 11, 16, 23, 4, 11, 16, 23, 4, 11, 16, 23,
   6, 10, 15, 21, 6, 10, 15, 21, 6, 10, 15, 21, 6, 10, 15, 21]

/-- `v` as `n` little-endian bytes. -/
def leBytes : Nat → Nat → List Nat
  | 0, _ => []
  | n + 1, v => (v % 256) :: leBytes n (v / 256)

/-- Group a byte list into little-endian 32-bit words. -/
def toWords : List Nat → List Nat
  | b0 :: b1 :: b2 :: b3 :: rest =>
    (b0 + 256 * (b1 + 256 * (b2 + 256 * b3))) :: toWords rest
  | _ => []

/-- MD5 padding: append `0x80`, zeros to 56 mod 64, then the bit length as
8 little-endian bytes. -/
def padMsg (msg : List Nat) : List Nat :=
  let len := msg.length
  let padZeros := (119 - len % 64) % 64
  msg ++ 128 :: List.replicate padZeros 0 ++ leBytes 8 ((8 * len) % (2 ^ 64))

/-- One of the 64 MD5 operations: `m` is the chunk's word list. -/
def md5Op (m : List Nat) (st : Nat × Nat × Nat × Nat) (i : Nat) :
    Nat × Nat × Nat × Nat :=
  let a := st.1
  let b := st.2.1
  let c := st.2.2.1
  let d := st.2.2.2
  let fg : Nat × Nat :=
    if i < 16 then (((b &&& c) ||| ((not32 b) &&& d)), i)
    else if i < 32 then (((d &&& b) ||| ((not32 d) &&& c)), (5 * i + 1) % 16)
    else if i < 48 then ((b ^^^ c ^^^ d), (3 * i + 5) % 16)
    else ((c ^^^ (b ||| (not32 d))), (7 * i) % 16)
  let f2 := (fg.1 + a + md5K.getD i 0 + m.getD fg.2 0) % w32
  (d, (b + rotl32 f2 (md5S.getD i 0)) % w32, b, c)

/-- Process one 64-byte chunk. -/
def md5Chunk (chunk : List Nat) (st : Nat × Nat × Nat × Nat) :
    Nat × Nat × Nat × Nat :=
  let m := toWords chunk
  let r := (List.range 64).foldl (md5Op m) st
  ((st.1 + r.1) % w32, (st.2.1 + r.2.1) % w32,
   (st.2.2.1 + r.2.2.1) % w32, (st.2.2.2 + r.2.2.2) % w32)

/-- Process the padded message 64 bytes at a time (fuel-indexed: the fuel is
the byte count, and each step consumes 64 bytes). -/
def md5Chunks : Nat → List Nat → Nat × Nat × Nat × Nat → Nat × Nat × Nat × Nat
  | 0, _, st => st
  | fuel + 1, bytes, st =>
    match bytes with
    | [] => st
    | _ :: _ => md5Chunks fuel (bytes.drop 64) (md5Chunk (bytes.take 64) st)

/-- Pack the four 32-bit registers into the 128-bit little-endian digest
integer. -/
def packDigest (a b c d : Nat) : Nat :=
  (a % w32) + w32 * ((b % w32) + w32 * ((c % w32) + w32 * (d % w32)))

/-- MD5 digest of a byte list, as the little-endian 128-bit integer. -/
def md5 (msg : List Nat) : Nat :=
  let padded := padMsg msg
  let r := md5Chunks padded.length padded
    (0x67452301, 0xefcdab89, 0x98badcfe, 0x10325476)
  packDigest r.1 r.2.1 r.2.2.1 r.2.2.2

/-- UTF-8 bytes of a string (ASCII scope: one byte per character). -/
def strBytes (s : String) : List Nat := s.data.map Char.toNat

/-- src/server/neosearch.py `get_repo_hash(data)`:
`hashlib.md5(json.dumps(data, sort_keys=True).encode('utf-8'))`. -/
def get_repo_hash (d : Json) : Nat := md5 (strBytes (dumps d))

/-! ## Change Detector (src/server/neosearch.py `check_repo_changes`)

`env` models the filesystem snapshot seen during one call: the parsed JSON
content of each valid configured local repository (`none` = validation
fails, the repository is skipped). The global `repo_hashes` dict is passed
and returned explicitly. -/

/-- src/server/neosearch.py `check_repo_changes(config)`: walk
`config["local_files"]`; skip invalid repositories; seed the cache on first
observation; on the first repository whose recomputed hash differs from its
cached value, update that entry and return `True` immediately; return
`False` after a full pass. -/
def check_repo_changes (env : String → Option Json) :
    List String → List (String × Nat) → Bool × List (String × Nat)
  | [], cache => (false, cache)
  | repo :: rest, cache =>
    match env repo with
    | none => check_repo_changes env rest cache
    | some data =>
      let h := get_repo_hash data
      match dictGet cache repo with
      | none => check_repo_changes env rest (dictInsert cache repo h)
      | some old =>
        if old ≠ h then (true, dictInsert cache repo h)
        else check_repo_changes env rest cache

/-! ## Session State Machine, interactive CLI (src/cli/neosearch.py `main`)

One REPL iteration is a step function on the session state. A command is a
dispatched user input together with the answers to the branch's sub-prompts
(the dispatch lowercases the raw input; unrecognized inputs are
`Cmd.unknown`). `allData` is the entry store loaded at startup. -/

/-- Session state of the src/cli/neosearch.py loop. -/
structure SessionState where
  localFiles : List String
  urls : List String
  currentFilter : Option String
  currentField : Option String
  filteredData : List Entry
  currentPage : Nat
  totalPages : Nat
  deriving DecidableEq, Repr

/-- `per_page = 10`. -/
def perPage : Nat := 10

/-- `(len(data) + per_page - 1) // per_page`. -/
def pages (count : Nat) : Nat := (count + perPage - 1) / perPage

/-- Sub-interaction of the repository-management branch (`'r'`). -/
inductive RepoAction where
  | add (path : String)
  | del (numInput : String)
  | back
  | unknown (s : String)
  deriving DecidableEq, Repr

/-- One dispatched command of the src/cli/neosearch.py loop. -/
inductive Cmd where
  | n
  | p
  | q
  | f (query : String)
  | c
  | s (recordInput : String)
  | r (action : RepoAction)
  | fr (numInput : String)
  | unknown (input : String)
  deriving DecidableEq, Repr

/-- One iteration of the src/cli/neosearch.py `main` loop. -/
def cliStep (allData : List Entry) (st : SessionState) : Cmd → SessionState
  | .n =>
    if st.currentPage < st.totalPages then { st with currentPage := st.currentPage + 1 }
    else st
  | .p =>
    if st.currentPage > 1 then { st with currentPage := st.currentPage - 1 }
    else st
  | .q => st
  | .f query =>
    let pr := parse_query query
    let st1 :=
      match pr.1 with
      | (f0, _) :: _ =>
        let v0 := (dictGet pr.1 f0).getD ""
        { st with currentField := some f0, currentFilter := some v0,
                  filteredData := filter_data allData (some v0) none (some f0) }
      | [] =>
        if pr.2 ≠ "" then
          { st with currentFilter := some pr.2, currentField := none,
                    filteredData := filter_data allData (some pr.2) none none }
        else st
    { st1 with totalPages := pages st1.filteredData.length, currentPage := 1 }
  | .c =>
    { st with currentFilter := none, currentField := none, filteredData := allData,
              totalPages := pages allData.length, currentPage := 1 }
  | .s _ => st
  | .r act =>
    match act with
    | .add path =>
      if path.endsWith ".json" then { st with localFiles := st.localFiles ++ [path] }
      else { st with urls := st.urls ++ [path] }
    | .del numInput =>
      match parseInt numInput with
      | none => st
      | some i =>
        if i ≤ Int.ofNat st.localFiles.length then
          match pyPop st.localFiles (i - 1) with
          | some pr => { st with localFiles := pr.2 }
          | none => st
        else
          match pyPop st.urls (i - 1 - Int.ofNat st.localFiles.length) with
          | some pr => { st with urls := pr.2 }
          | none => st
    | .back => st
    | .unknown _ => st
  | .fr numInput =>
    match parseInt numInput with
    | none => st
    | some i =>
      let repos := st.localFiles ++ st.urls
      let st1 :=
        if i = 0 then
          { st with filteredData :=
              filter_data allData st.currentFilter none st.currentField }
        else if i < 1 ∨ i > Int.ofNat repos.length then st
        else
          let selected := repos.getD (i.toNat - 1) ""
          { st with filteredData :=
              filter_data allData st.currentFilter (some selected) st.currentField }
      { st1 with totalPages := pages st1.filteredData.length, currentPage := 1 }
  | .unknown _ => st

/-! ## Session loop of src/main.py `main` -/

/-- Session state of the src/main.py loop. -/
structure MainState where
  localFiles : List String
  filteredData : List Entry
  currentPage : Nat
  totalPages : Nat
  deriving DecidableEq, Repr

/-- One dispatched command of the src/main.py loop (it has no `'fr'`
command). -/
inductive MainCmd where
  | n
  | p
  | q
  | f (query : String)
  | c
  | s (recordInput : String)
  | r (action : RepoAction)
  | unknown (input : String)
  deriving DecidableEq, Repr

/-- One iteration of the src/main.py `main` loop. Note that the `'f'` and
`'c'` branches recompute `total_pages` but do not reset `current_page`
(unlike src/cli/neosearch.py); both arms of the `'f'` conditional call
`filter_data(all_data, keyword)` with the residual keyword only. -/
def mainStep (allData : List Entry) (st : MainState) : MainCmd → MainState
  | .n =>
    if st.currentPage < st.totalPages then { st with currentPage := st.currentPage + 1 }
    else st
  | .p =>
    if st.currentPage > 1 then { st with currentPage := st.currentPage - 1 }
    else st
  | .q => st
  | .f query =>
    let newData := filter_data_main allData (parse_query query).2
    { st with filteredData := newData, totalPages := pages newData.length }
  | .c =>
    { st with filteredData := allData, totalPages := pages allData.length }
  | .s _ => st
  | .r act =>
    match act with
    | .add path => { st with localFiles := st.localFiles ++ [path] }
    | .del numInput =>
      match parseInt numInput with
      | none => st
      | some i =>
        match pyPop st.localFiles (i - 1) with
        | some pr => { st with localFiles := pr.2 }
        | none => st
    | .back => st
    | .unknown _ => st
  | .unknown _ => st

/-! ## Concrete fixtures used by witnesses and counterexamples -/

/-- The first example entry of the specification (§8). -/
def exEntryA : Entry :=
  [("url", .vstr "a"), ("description", .vstr "Algebra basics"),
   ("category", .vstr "math"), ("tags", .vlist ["math", "intro"])]

/-- The second example entry of the specification (§8). -/
def exEntryB : Entry :=
  [("url", .vstr "b"), ("description", .vstr "Chemistry 101"),
   ("category", .vstr "science")]

/-- A filler entry matching no interesting keyword. -/
def fillerEntry : Entry :=
  [("url", .vstr "u"), ("description", .vstr "other"), ("category", .vstr "misc")]

/-- An 11-entry store whose only match for the keyword `zz` is its head. -/
def zzData : List Entry :=
  [("url", .vstr "z"), ("description", .vstr "zz special"), ("category", .vstr "math")]
    :: List.replicate 10 fillerEntry

/-- A CLI session state sitting on page 2 of 2, unfiltered over `zzData`. -/
def zzSession : SessionState :=
  { localFiles := ["repo.json"], urls := [], currentFilter := none,
    currentField := none, filteredData := zzData, currentPage := 2, totalPages := 2 }

/-- The analogous src/main.py session state. -/
def zzMainSession : MainState :=
  { localFiles := ["repo.json"], filteredData := zzData, currentPage := 2,
    totalPages := 2 }

/-! ## C2: pagination invariant of the interactive loop -/

/-- C2. For every command of the src/cli/neosearch.py loop, a session state
satisfying the pagination invariant `1 ≤ page ≤ max(total_pages, 1)` steps
to a state satisfying it again; in particular `'n'` past the last page and
`'p'` past page 1 are no-ops on the page. -/
theorem c2_pagination_invariant_preserved (allData : List Entry)
    (st : SessionState) (cmd : Cmd)
    (h1 : 1 ≤ st.currentPage) (h2 : st.currentPage ≤ max st.totalPages 1) :
    1 ≤ (cliStep allData st cmd).currentPage ∧
      (cliStep allData st cmd).currentPage ≤
        max (cliStep allData st cmd).totalPages 1 := by
  cases cmd <;> simp only [cliStep] <;> (repeat' split) <;>
    simp_all <;> omega

/-- Witness for C2 at a concrete state and command. -/
theorem c2_pagination_invariant_preserved_witness :
    (1 ≤ zzSession.currentPage ∧ zzSession.currentPage ≤ max zzSession.totalPages 1) ∧
      (1 ≤ (cliStep zzData zzSession .n).currentPage ∧
        (cliStep zzData zzSession .n).currentPage ≤
          max (cliStep zzData zzSession .n).totalPages 1) :=
  ⟨⟨by decide, by decide⟩,
    c2_pagination_invariant_preserved zzData zzSession .n (by decide) (by decide)⟩

/-! ## C9: frame behavior of invalid inputs -/

/-- C9 counterexample. The claim says every invalid input leaves the whole
session state unchanged, but an out-of-range repository number given to
`'fr'` (here `5` with one configured repository) still resets the page
to 1: from page 2 the state changes. -/
theorem c9_fr_out_of_range_counterexample :
    cliStep zzData zzSession (.fr "5") ≠ zzSession ∧
      (cliStep zzData zzSession (.fr "5")).currentPage = 1 ∧
      zzSession.currentPage = 2 ∧
      (cliStep zzData zzSession (.fr "5")).filteredData = zzSession.filteredData := by
  refine ⟨?_, by decide, by decide, rfl⟩
  intro h
  have hpg : (cliStep zzData zzSession (.fr "5")).currentPage = zzSession.currentPage :=
    congrArg SessionState.currentPage h
  have e1 : (cliStep zzData zzSession (.fr "5")).currentPage = 1 := by decide
  have e2 : zzSession.currentPage = 2 := by decide
  omega

/-- C9, amended. Invalid inputs to the src/cli/neosearch.py loop leave the
filter, field and filtered sequence unchanged, and every invalid input
except an out-of-range (nonzero) repository number in `'fr'` leaves the
whole state unchanged; that one case resets the page to 1 and recomputes
`total_pages` from the unchanged filtered sequence. Also, `'n'` on the last
page and `'p'` on page 1 fall through to the invalid-input message and
change nothing. -/
theorem c9_invalid_input_frame_amended (allData : List Entry) (st : SessionState) :
    (∀ s, cliStep allData st (.unknown s) = st) ∧
    (∀ inp, cliStep allData st (.s inp) = st) ∧
    (∀ inp, parseInt inp = none → cliStep allData st (.fr inp) = st) ∧
    (∀ inp, parseInt inp = none → cliStep allData st (.r (.del inp)) = st) ∧
    (∀ s, cliStep allData st (.r (.unknown s)) = st) ∧
    (cliStep allData st (.r .back) = st) ∧
    (∀ inp i, parseInt inp = some i →
      i ≤ Int.ofNat st.localFiles.length → pyPop st.localFiles (i - 1) = none →
      cliStep allData st (.r (.del inp)) = st) ∧
    (∀ inp i, parseInt inp = some i →
      ¬ i ≤ Int.ofNat st.localFiles.length →
      pyPop st.urls (i - 1 - Int.ofNat st.localFiles.length) = none →
      cliStep allData st (.r (.del inp)) = st) ∧
    (∀ inp i, parseInt inp = some i → i ≠ 0 →
      (i < 1 ∨ i > Int.ofNat (st.localFiles ++ st.urls).length) →
      cliStep allData st (.fr inp) =
        { st with currentPage := 1,
                  totalPages := pages st.filteredData.length }) ∧
    (st.totalPages ≤ st.currentPage → cliStep allData st .n = st) ∧
    (st.currentPage ≤ 1 → cliStep allData st .p = st) := by
  refine ⟨fun s => rfl, fun inp => rfl, ?_, ?_, fun s => rfl, rfl, ?_, ?_, ?_, ?_, ?_⟩
  · intro inp h; simp only [cliStep, h]
  · intro inp h; simp only [cliStep, h]
  · intro inp i hi hle hpop; simp only [cliStep, hi, hpop]
    split
    · rfl
    · omega
  · intro inp i hi hgt hpop; simp only [cliStep, hi, hpop]
    split
    · omega
    · simp only [hpop]
  · intro inp i hi hne hrange
    simp only [cliStep, hi]
    have h0 : ¬ i = 0 := hne
    have hr : i < 1 ∨ Int.ofNat (st.localFiles ++ st.urls).length < i := by
      rcases hrange with h | h
      · exact Or.inl h
      · exact Or.inr h
    simp only [if_neg h0]
    rw [if_pos]
    omega
  · intro h; simp only [cliStep]; rw [if_neg]; omega
  · intro h; simp only [cliStep]; rw [if_neg]; omega

/-- Witness for C9's amended theorem at concrete inputs. -/
theorem c9_invalid_input_frame_amended_witness :
    (parseInt "xx" = none ∧ cliStep zzData zzSession (.fr "xx") = zzSession) ∧
      cliStep zzData zzSession (.unknown "zz") = zzSession :=
  ⟨⟨by decide,
    (c9_invalid_input_frame_amended zzData zzSession).2.2.1 "xx" (by decide)⟩,
    (c9_invalid_input_frame_amended zzData zzSession).1 "zz"⟩

/-! ## C1: page reset on filter change -/

/-- C1. src/main.py's `'f'` branch recomputes `total_pages` but leaves
`current_page` where it was: filtering `zzData` down to one entry from
page 2 of 2 yields `current_page = 2 > total_pages = 1`, contradicting the
claimed reset to page 1. The src/cli/neosearch.py loop, on the same
scenario, does reset the page to 1 (and both recompute
`total_pages = ceil(count / per_page)`). -/
theorem c1_main_filter_keeps_page :
    (mainStep zzData zzMainSession (.f "zz")).currentPage = 2 ∧
      (mainStep zzData zzMainSession (.f "zz")).totalPages = 1 ∧
      (mainStep zzData zzMainSession (.f "zz")).filteredData.length = 1 ∧
      (cliStep zzData zzSession (.f "zz")).currentPage = 1 ∧
      (cliStep zzData zzSession (.f "zz")).totalPages = 1 ∧
      (mainStep zzData zzMainSession .c).currentPage = 2 ∧
      (cliStep zzData zzSession .c).currentPage = 1 := by
  decide

/-! ## C5: global (no-field) keyword filtering -/

/-- A non-empty string is not `isEmpty`. -/
theorem isEmpty_false_of_ne (k : String) (hk : k ≠ "") : k.isEmpty = false := by
  rw [Bool.eq_false_iff]
  intro h
  exact hk ((String.isEmpty_iff k).mp h)

/-- With a non-empty keyword and no field or repository, `filter_data` is
the list filter by the global-scan predicate. -/
theorem filter_data_global_eq (data : List Entry) (k : String) (hk : k ≠ "") :
    filter_data data (some k) none none =
      data.filter (fun e => globalMatch e k) := by
  have hkT : pyTruthy (some k) = true := by
    simp [pyTruthy, isEmpty_false_of_ne k hk]
  simp [filter_data, keywordStage, repoStage, hkT,
    show pyTruthy (none : Option String) = false from rfl]

/-- C5. For a non-empty keyword and no field, `filter_data` returns the
order-preserving subsequence of exactly those entries some field of which
has a string representation case-insensitively containing the keyword. -/
theorem c5_global_filter_exact (data : List Entry) (k : String) (hk : k ≠ "") :
    List.Sublist (filter_data data (some k) none none) data ∧
      ∀ e, e ∈ filter_data data (some k) none none ↔
        e ∈ data ∧ ∃ kv ∈ e, strInLower k (pyStr kv.2) = true := by
  have hres := filter_data_global_eq data k hk
  constructor
  · rw [hres]; exact List.filter_sublist data
  · intro e
    rw [hres, List.mem_filter]
    constructor
    · rintro ⟨he, hm⟩
      refine ⟨he, ?_⟩
      simpa [globalMatch, List.any_eq_true] using hm
    · rintro ⟨he, hm⟩
      refine ⟨he, ?_⟩
      simpa [globalMatch, List.any_eq_true] using hm

/-- Witness for C5 on the specification's §8 example: keyword `math`
selects exactly the first entry. -/
theorem c5_global_filter_exact_witness :
    ("math" : String) ≠ "" ∧
      (List.Sublist (filter_data [exEntryA, exEntryB] (some "math") none none)
          [exEntryA, exEntryB] ∧
        ∀ e, e ∈ filter_data [exEntryA, exEntryB] (some "math") none none ↔
          e ∈ [exEntryA, exEntryB] ∧ ∃ kv ∈ e, strInLower "math" (pyStr kv.2) = true) :=
  ⟨by decide, c5_global_filter_exact [exEntryA, exEntryB] "math" (by decide)⟩

/-! ## C6: tags-scoped filtering -/

/-- C6 counterexample. With the empty keyword, `filter_data` skips
filtering entirely (Python truthiness), so an entry lacking a `tags` key is
returned; the claim requires it to be excluded "for every keyword". -/
theorem c6_empty_keyword_counterexample :
    fillerEntry ∈ filter_data [fillerEntry] (some "") none (some "tags") ∧
      dictGet fillerEntry "tags" = none := by
  decide

/-- An entry whose `tags` value, when present, is a sequence (not a bare
string): the shape the data model of §3 prescribes. -/
def tagsIsSeq (e : Entry) : Bool :=
  match dictGet e "tags" with
  | some (.vstr _) => false
  | _ => true

/-- C6, amended. For a non-empty keyword and entries whose `tags` value,
when present, is a sequence of strings, filtering with field `tags` returns
exactly the entries having a `tags` sequence with at least one element
case-insensitively containing the keyword; entries lacking a `tags` key are
excluded. -/
theorem c6_tags_filter_amended (data : List Entry) (k : String) (hk : k ≠ "")
    (hwf : data.all tagsIsSeq = true) :
    List.Sublist (filter_data data (some k) none (some "tags")) data ∧
      (∀ e, e ∈ filter_data data (some k) none (some "tags") ↔
        e ∈ data ∧ ∃ l, dictGet e "tags" = some (Value.vlist l) ∧
          ∃ t ∈ l, strInLower k t = true) ∧
      ∀ e ∈ data, dictGet e "tags" = none →
        e ∉ filter_data data (some k) none (some "tags") := by
  have hkT : pyTruthy (some k) = true := by
    simp [pyTruthy, isEmpty_false_of_ne k hk]
  have hres : filter_data data (some k) none (some "tags") =
      data.filter (fun e => tagsMatch e "tags" k) := by
    simp [filter_data, keywordStage, repoStage, hkT,
      show pyTruthy (some ("tags" : String)) = true from by decide,
      show (("tags" : String) == "tags") = true from by decide,
      show pyTruthy (none : Option String) = false from rfl]
  have hseq : ∀ e ∈ data, ∀ v, dictGet e "tags" = some v → ∃ l, v = .vlist l := by
    intro e he v hv
    have h1 : tagsIsSeq e = true := List.all_eq_true.mp hwf e he
    cases v with
    | vstr s => rw [tagsIsSeq, hv] at h1; exact absurd h1 (by simp)
    | vlist l => exact ⟨l, rfl⟩
  have hmem : ∀ e, e ∈ filter_data data (some k) none (some "tags") ↔
      e ∈ data ∧ ∃ l, dictGet e "tags" = some (Value.vlist l) ∧
        ∃ t ∈ l, strInLower k t = true := by
    intro e
    rw [hres, List.mem_filter]
    constructor
    · rintro ⟨he, hm⟩
      refine ⟨he, ?_⟩
      simp only [tagsMatch, Bool.and_eq_true, dictHas, Option.isSome_iff_exists] at hm
      obtain ⟨⟨v, hv⟩, hany⟩ := hm
      obtain ⟨l, rfl⟩ := hseq e he v hv
      refine ⟨l, hv, ?_⟩
      simpa [pyElems, hv, List.any_eq_true] using hany
    · rintro ⟨he, l, hv, t, ht, hct⟩
      refine ⟨he, ?_⟩
      simp only [tagsMatch, Bool.and_eq_true, dictHas, Option.isSome_iff_exists]
      exact ⟨⟨_, hv⟩, by simpa [pyElems, hv, List.any_eq_true] using ⟨t, ht, hct⟩⟩
  refine ⟨?_, hmem, ?_⟩
  · rw [hres]; exact List.filter_sublist data
  · intro e _ hno hin
    obtain ⟨_, l, hv, _⟩ := (hmem e).mp hin
    rw [hno] at hv
    exact Option.noConfusion hv

/-- Witness for C6's amended theorem on the §8 example data with keyword
`intro`. -/
theorem c6_tags_filter_amended_witness :
    (("intro" : String) ≠ "" ∧ [exEntryA, exEntryB].all tagsIsSeq = true) ∧
      exEntryA ∈ filter_data [exEntryA, exEntryB] (some "intro") none (some "tags") :=
  ⟨⟨by decide, by decide⟩,
    ((c6_tags_filter_amended [exEntryA, exEntryB] "intro" (by decide)
        (by decide)).2.1 exEntryA).mpr
      ⟨by decide, ["math", "intro"], by decide, "intro", by decide, by decide⟩⟩

/-! ## C10: the stamped repository field participates in the global scan -/

/-- Looking up the field just stamped returns the stamped value. -/
theorem dictGet_dictInsert_self (d : List (String × α)) (k : String) (v : α) :
    dictGet (dictInsert d k v) k = some v := by
  induction d with
  | nil => simp [dictInsert, dictGet]
  | cons p t ih =>
    by_cases h : p.1 == k
    · cases p; simp_all [dictInsert, dictGet]
    · cases p; simp_all [dictInsert, dictGet]

/-- The loader's fold only grows the accumulator. -/
theorem mem_loadFold_of_mem_acc (sources : List (String × List Entry))
    (acc : List Entry) (x : Entry) (hx : x ∈ acc) :
    x ∈ sources.foldl
      (fun acc src => acc ++ src.2.map (fun e => stampRepo e src.1)) acc := by
  induction sources generalizing acc with
  | nil => exact hx
  | cons s rest ih => exact ih _ (List.mem_append_left _ hx)

/-- Every entry of every source reaches the entry store, stamped. -/
theorem stamp_mem_cliLoadAll (sources : List (String × List Entry))
    (path : String) (es : List Entry) (hs : (path, es) ∈ sources)
    (e0 : Entry) (he : e0 ∈ es) :
    stampRepo e0 path ∈ cliLoadAll sources := by
  rw [cliLoadAll]
  generalize hacc : ([] : List Entry) = acc
  clear hacc
  induction sources generalizing acc with
  | nil => cases hs
  | cons s rest ih =>
    rcases List.mem_cons.mp hs with heq | hrest
    · subst heq
      exact mem_loadFold_of_mem_acc rest _ _
        (List.mem_append_right _ (List.mem_map.mpr ⟨e0, he, rfl⟩))
    · exact ih hrest _

/-- C10. The loader stamps `repository` on every entry; the stamped entries
are in the entry store; and the global (no-field) scan iterates over every
key of an entry, the stamped `repository` included: any loaded entry whose
`repository` string case-insensitively contains the keyword survives a
global search, whatever its other fields hold. -/
theorem c10_repository_in_global_scan (sources : List (String × List Entry))
    (k : String) (hk : k ≠ "") :
    (∀ path e, dictGet (stampRepo e path) "repository" = some (.vstr path)) ∧
      (∀ path es, (path, es) ∈ sources → ∀ e0 ∈ es,
        stampRepo e0 path ∈ cliLoadAll sources) ∧
      ∀ e ∈ cliLoadAll sources, ∀ r, dictGet e "repository" = some (.vstr r) →
        strInLower k r = true →
        e ∈ filter_data (cliLoadAll sources) (some k) none none := by
  refine ⟨fun path e => dictGet_dictInsert_self e "repository" _,
    fun path es hs e0 he => stamp_mem_cliLoadAll sources path es hs e0 he,
    ?_⟩
  intro e he r hr hc
  rw [filter_data_global_eq _ k hk, List.mem_filter]
  refine ⟨he, ?_⟩
  obtain ⟨p, hpe, _, hp2⟩ := dictGet_some_mem e "repository" _ hr
  simp only [globalMatch, List.any_eq_true]
  exact ⟨p, hpe, by rw [hp2]; exact hc⟩

/-- Witness for C10: an entry none of whose original fields contains
`math`, loaded from `math.json`, is matched by a global search for `math`
purely through its stamped repository identifier. -/
theorem c10_repository_in_global_scan_witness :
    (("math" : String) ≠ "" ∧ globalMatch exEntryB "math" = false) ∧
      stampRepo exEntryB "math.json" ∈
        filter_data (cliLoadAll [("math.json", [exEntryB])]) (some "math") none none :=
  ⟨⟨by decide, by decide⟩,
    (c10_repository_in_global_scan [("math.json", [exEntryB])] "math"
          (by decide)).2.2
      (stampRepo exEntryB "math.json")
      ((c10_repository_in_global_scan [("math.json", [exEntryB])] "math"
            (by decide)).2.1
        "math.json" [exEntryB] (by decide) exEntryB (by decide))
      "math.json"
      ((c10_repository_in_global_scan [("math.json", [exEntryB])] "math"
            (by decide)).1
        "math.json" exEntryB)
      (by decide)⟩

/-! ## C7: repository stamping and repository-scoped filtering -/

/-- The snapshot for C7: one configured repository `r.json` holding one
entry with no `repository` key of its own. -/
def c7Env : String → Option (List Entry) :=
  fun r => if r = "r.json" then some [fillerEntry] else none

/-- C7. The interactive loader stamps `entry["repository"]` with the source
identifier and repository-scoped `filter_data` then returns exactly the
entries loaded from that source - but the HTTP search path of
src/server/neosearch.py never stamps, so `GET /search?repository=r.json`
returns nothing even though `r.json` contributed an entry; the claim fails
on the server path. -/
theorem c7_server_search_no_stamp :
    serverSearch c7Env ["r.json"] none (some "r.json") none = [] ∧
      serverSearch c7Env ["r.json"] none none none = [fillerEntry] ∧
      dictGet fillerEntry "repository" = none ∧
      cliLoadAll [("r.json", [fillerEntry])] = [stampRepo fillerEntry "r.json"] ∧
      dictGet (stampRepo fillerEntry "r.json") "repository" =
        some (.vstr "r.json") ∧
      filter_data (cliLoadAll [("r.json", [fillerEntry])]) none (some "r.json") none =
        [stampRepo fillerEntry "r.json"] := by
  decide

/-! ## C4: the query parser

Supporting lemmas: the head of `dropWhile p` fails `p`, strip is
idempotent, and a left fold of dict inserts realizes last-seen-wins. -/

/-- The head of `dropWhile p l`, when present, fails `p`. -/
theorem head?_dropWhile_false (p : α → Bool) (l : List α) :
    ∀ x, (List.dropWhile p l).head? = some x → p x = false := by
  induction l with
  | nil => intro x hx; exact Option.noConfusion hx
  | cons a t ih =>
    intro x hx
    rw [List.dropWhile_cons] at hx
    by_cases ha : p a
    · rw [if_pos ha] at hx; exact ih x hx
    · rw [if_neg ha] at hx
      cases Option.some.inj hx
      exact Bool.eq_false_iff.mpr ha

/-- A list whose head fails `p` is unchanged by `dropWhile p`. -/
theorem dropWhile_eq_self_of_head (p : α → Bool) (l : List α)
    (h : ∀ x, l.head? = some x → p x = false) : List.dropWhile p l = l := by
  cases l with
  | nil => rfl
  | cons a t =>
    rw [List.dropWhile_cons, if_neg]
    rw [h a rfl]
    exact Bool.false_ne_true

/-- A non-empty prefix starts with the same element as the whole list. -/
theorem head?_eq_of_pre (w v : List α) (h : w <+: v) (x : α)
    (hx : w.head? = some x) : v.head? = some x := by
  obtain ⟨t, rfl⟩ := h
  cases w with
  | nil => exact Option.noConfusion hx
  | cons a u => exact hx

/-- Python strip is idempotent. -/
theorem stripL_idem (l : List Char) : stripL (stripL l) = stripL l := by
  have hdef : ∀ m : List Char, stripL m =
      List.rdropWhile isSpace (List.dropWhile isSpace m) := by
    intro m; rfl
  set u := List.dropWhile isSpace l with hu
  set r := List.rdropWhile isSpace u with hr
  have h1 : stripL l = r := hdef l
  rw [h1, hdef r]
  have h2 : List.dropWhile isSpace r = r := by
    apply dropWhile_eq_self_of_head
    intro x hx
    apply head?_dropWhile_false isSpace l x
    exact head?_eq_of_pre r u (List.rdropWhile_prefix isSpace u) x hx
  rw [h2, hr, List.rdropWhile_idempotent]

/-- `find?` over an append searches the left part first. -/
theorem find?_append_or (p : α → Bool) (l₁ l₂ : List α) :
    (l₁ ++ l₂).find? p =
      match l₁.find? p with
      | some x => some x
      | none => l₂.find? p := by
  induction l₁ with
  | nil => rfl
  | cons a t ih =>
    by_cases ha : p a
    · rw [List.cons_append, List.find?_cons_of_pos _ ha, List.find?_cons_of_pos _ ha]
    · rw [List.cons_append, List.find?_cons_of_neg _ ha, List.find?_cons_of_neg _ ha, ih]

/-- Looking up a key other than the inserted one is unchanged. -/
theorem dictGet_dictInsert_ne (d : List (String × α)) (k k' : String) (v : α)
    (h : k' ≠ k) : dictGet (dictInsert d k v) k' = dictGet d k' := by
  have hkk : (k == k') = false := beq_eq_false_iff_ne.mpr (fun he => h he.symm)
  induction d with
  | nil => simp [dictInsert, dictGet, hkk]
  | cons p t ih =>
    obtain ⟨a, b⟩ := p
    by_cases hak : (a == k)
    · rw [show dictInsert ((a, b) :: t) k v = (a, v) :: t from by
        simp [dictInsert, hak]]
      have haK : a = k := beq_iff_eq.mp hak
      rw [dictGet, dictGet, haK, if_neg (by rw [hkk]; exact Bool.false_ne_true),
        if_neg (by rw [hkk]; exact Bool.false_ne_true)]
    · rw [show dictInsert ((a, b) :: t) k v = (a, b) :: dictInsert t k v from by
        simp [dictInsert, hak]]
      by_cases hak' : (a == k')
      · rw [dictGet, dictGet, if_pos hak', if_pos hak']
      · rw [dictGet, dictGet, if_neg hak', if_neg hak', ih]

/-- Last-seen-wins: looking up a field in the dict built by folding
`dictInsert` over the match list returns the value of the last match with
that field name. -/
theorem dictGet_foldl_insert (ms : List (String × String))
    (d : List (String × String)) (fld : String) :
    dictGet (ms.foldl (fun d m => dictInsert d m.1 m.2) d) fld =
      match ms.reverse.find? (fun m => m.1 == fld) with
      | some m => some m.2
      | none => dictGet d fld := by
  induction ms generalizing d with
  | nil => rfl
  | cons m t ih =>
    rw [List.foldl_cons, ih, List.reverse_cons, find?_append_or]
    cases hf : t.reverse.find? (fun m => m.1 == fld) with
    | some x => rfl
    | none =>
      rw [List.find?_cons]
      cases hmb : (m.1 == fld) with
      | true =>
        have hfe : fld = m.1 := (beq_iff_eq.mp hmb).symm
        rw [hfe, dictGet_dictInsert_self]
      | false =>
        rw [List.find?_nil]
        exact dictGet_dictInsert_ne d m.1 fld m.2
          (fun he => by rw [beq_iff_eq.mpr he.symm] at hmb; exact Bool.noConfusion hmb)

/-- C4 counterexample. When the query contains no recognized token, the
residual is the query itself, not stripped of surrounding whitespace:
`parse_query('  science  ')` keeps the spaces, while the claim requires the
trimmed residual `'science'`. -/
theorem c4_untrimmed_residual_counterexample :
    parse_query "  science  " = ([], "  science  ") ∧
      ("  science  " : String) ≠ "science" := by
  decide

/-- C4, amended. The three example parses hold; the filters map is
last-seen-wins (a lookup returns the value of the last recognized match
with that field name); and the residual is computed by successive
replace-every-occurrence-then-strip steps, so it is whitespace-trimmed
whenever at least one token was recognized, but is the original query,
untrimmed, when no token was recognized. -/
theorem c4_parse_query_amended :
    parse_query "science" = ([], "science") ∧
      parse_query "description=\"math\"" = ([("description", "math")], "") ∧
      parse_query "algebra tags=\"physics\"" = ([("tags", "physics")], "algebra") ∧
      (∀ q, findAllMatches q = [] → (parse_query q).2 = q) ∧
      (∀ q, findAllMatches q ≠ [] →
        stripL (parse_query q).2.data = (parse_query q).2.data) ∧
      ∀ q fld, dictGet (parse_query q).1 fld =
        match (findAllMatches q).reverse.find? (fun m => m.1 == fld) with
        | some m => some m.2
        | none => none := by
  refine ⟨by decide, by decide, by decide, ?_, ?_, ?_⟩
  · intro q h
    simp [parse_query, h]
  · intro q h
    rcases List.eq_nil_or_concat (findAllMatches q) with h0 | ⟨init, last, hms⟩
    · exact absurd h0 h
    · have hres : (parse_query q).2 = (findAllMatches q).foldl
          (fun r m => String.mk (stripL (replaceAll r.data (tokenText m.1 m.2)))) q := rfl
      rw [hres, hms, List.concat_eq_append, List.foldl_concat]
      exact stripL_idem _
  · intro q fld
    have hfil : (parse_query q).1 =
        (findAllMatches q).foldl (fun d m => dictInsert d m.1 m.2) [] := rfl
    rw [hfil, dictGet_foldl_insert]
    cases (findAllMatches q).reverse.find? (fun m => m.1 == fld) with
    | some x => rfl
    | none => rfl

/-- Witness for C4's amended theorem: a query with a recognized token has a
trimmed residual, a token-free query is returned untouched, and a repeated
field name resolves to its last value. -/
theorem c4_parse_query_amended_witness :
    (findAllMatches "  algebra tags=\"physics\"" ≠ [] ∧
        stripL (parse_query "  algebra tags=\"physics\"").2.data =
          (parse_query "  algebra tags=\"physics\"").2.data) ∧
      (findAllMatches "plain words" = [] ∧
        (parse_query "plain words").2 = "plain words") ∧
      dictGet (parse_query "a=\"x\" a=\"y\"").1 "a" =
        match (findAllMatches "a=\"x\" a=\"y\"").reverse.find?
            (fun m => m.1 == "a") with
        | some m => some m.2
        | none => none :=
  ⟨⟨by decide, c4_parse_query_amended.2.2.2.2.1 "  algebra tags=\"physics\""
      (by decide)⟩,
    ⟨by decide, c4_parse_query_amended.2.2.2.1 "plain words" (by decide)⟩,
    c4_parse_query_amended.2.2.2.2.2 "a=\"x\" a=\"y\"" "a"⟩

/-! ## C3: the repository change detector -/

/-- A configured repository whose recomputed hash differs from its value in
the entry cache (the signal the claim describes). -/
def cacheDiffers (env : String → Option Json) (cache : List (String × Nat))
    (r : String) : Prop :=
  ∃ d, env r = some d ∧ ∃ old, dictGet cache r = some old ∧ old ≠ get_repo_hash d

/-- During the loop, the working cache differs from the entry cache only by
freshly seeded entries (which hold the recomputed hash). -/
def SeedExt (env : String → Option Json) (cache₀ c : List (String × Nat)) : Prop :=
  ∀ r, dictGet c r = dictGet cache₀ r ∨
    (dictGet cache₀ r = none ∧
      ∃ d, env r = some d ∧ dictGet c r = some (get_repo_hash d))

/-- The truth value of `check_repo_changes` is exactly "some configured
repository is valid, already cached at call entry, and hashes differently". -/
theorem check_repo_changes_true_iff_aux (env : String → Option Json)
    (cache₀ : List (String × Nat)) :
    ∀ (config : List String) (c : List (String × Nat)), SeedExt env cache₀ c →
      ((check_repo_changes env config c).1 = true ↔
        ∃ r ∈ config, cacheDiffers env cache₀ r) := by
  intro config
  induction config with
  | nil =>
    intro c _
    simp [check_repo_changes]
  | cons repo rest ih =>
    intro c hse
    cases henv : env repo with
    | none =>
      have hstep : check_repo_changes env (repo :: rest) c =
          check_repo_changes env rest c := by
        simp [check_repo_changes, henv]
      rw [hstep, ih c hse]
      constructor
      · rintro ⟨r, hr, hd⟩
        exact ⟨r, List.mem_cons_of_mem _ hr, hd⟩
      · rintro ⟨r, hr, hd⟩
        rcases List.mem_cons.mp hr with rfl | hr2
        · obtain ⟨d, hd1, _⟩ := hd
          rw [henv] at hd1
          exact absurd hd1 (by simp)
        · exact ⟨r, hr2, hd⟩
    | some data =>
      cases hc : dictGet c repo with
      | none =>
        have hc0 : dictGet cache₀ repo = none := by
          rcases hse repo with h1 | ⟨_, _, _, hcv⟩
          · rw [hc] at h1; exact h1.symm
          · rw [hc] at hcv; exact Option.noConfusion hcv
        have hstep : check_repo_changes env (repo :: rest) c =
            check_repo_changes env rest (dictInsert c repo (get_repo_hash data)) := by
          simp [check_repo_changes, henv, hc]
        have hse' : SeedExt env cache₀ (dictInsert c repo (get_repo_hash data)) := by
          intro r
          by_cases hrr : r = repo
          · subst hrr
            exact Or.inr ⟨hc0, data, henv, dictGet_dictInsert_self c r _⟩
          · rw [dictGet_dictInsert_ne c repo r _ hrr]
            exact hse r
        rw [hstep, ih _ hse']
        constructor
        · rintro ⟨r, hr, hd⟩
          exact ⟨r, List.mem_cons_of_mem _ hr, hd⟩
        · rintro ⟨r, hr, hd⟩
          rcases List.mem_cons.mp hr with rfl | hr2
          · obtain ⟨d, _, old, ho, _⟩ := hd
            rw [hc0] at ho
            exact absurd ho (by simp)
          · exact ⟨r, hr2, hd⟩
      | some old =>
        by_cases hold : old = get_repo_hash data
        · have hstep : check_repo_changes env (repo :: rest) c =
              check_repo_changes env rest c := by
            simp [check_repo_changes, henv, hc, hold]
          rw [hstep, ih c hse]
          constructor
          · rintro ⟨r, hr, hd⟩
            exact ⟨r, List.mem_cons_of_mem _ hr, hd⟩
          · rintro ⟨r, hr, hd⟩
            rcases List.mem_cons.mp hr with rfl | hr2
            · obtain ⟨d, hd1, old', ho, hne⟩ := hd
              rw [henv] at hd1
              cases Option.some.inj hd1
              rcases hse r with h1 | ⟨h0, _⟩
              · rw [hc] at h1
                rw [← h1] at ho
                cases Option.some.inj ho
                exact absurd hold hne
              · rw [h0] at ho
                exact Option.noConfusion ho
            · exact ⟨r, hr2, hd⟩
        · have hstep : check_repo_changes env (repo :: rest) c =
              (true, dictInsert c repo (get_repo_hash data)) := by
            simp [check_repo_changes, henv, hc, hold]
          rw [hstep]
          simp only [true_iff, iff_true]
          refine ⟨repo, List.mem_cons_self _ _, data, henv, ?_⟩
          rcases hse repo with h1 | ⟨_, d, hd, hcv⟩
          · rw [hc] at h1
            exact ⟨old, h1.symm, hold⟩
          · rw [henv] at hd
            cases Option.some.inj hd
            rw [hc] at hcv
            cases Option.some.inj hcv
            exact absurd rfl hold

/-- On a pass that reports no change, entries already holding a value keep
it. -/
theorem check_repo_changes_stable (env : String → Option Json) :
    ∀ (config : List String) (c : List (String × Nat)) (r : String) (v : Nat),
      (check_repo_changes env config c).1 = false →
      dictGet c r = some v →
      dictGet (check_repo_changes env config c).2 r = some v := by
  intro config
  induction config with
  | nil =>
    intro c r v _ hv
    exact hv
  | cons repo rest ih =>
    intro c r v hfalse hv
    cases henv : env repo with
    | none =>
      have hstep : check_repo_changes env (repo :: rest) c =
          check_repo_changes env rest c := by
        simp [check_repo_changes, henv]
      rw [hstep] at hfalse ⊢
      exact ih c r v hfalse hv
    | some data =>
      cases hc : dictGet c repo with
      | none =>
        have hstep : check_repo_changes env (repo :: rest) c =
            check_repo_changes env rest (dictInsert c repo (get_repo_hash data)) := by
          simp [check_repo_changes, henv, hc]
        rw [hstep] at hfalse ⊢
        refine ih _ r v hfalse ?_
        by_cases hrr : r = repo
        · subst hrr; rw [hc] at hv; exact Option.noConfusion hv
        · rw [dictGet_dictInsert_ne c repo r _ hrr]; exact hv
      | some old =>
        by_cases hold : old = get_repo_hash data
        · have hstep : check_repo_changes env (repo :: rest) c =
              check_repo_changes env rest c := by
            simp [check_repo_changes, henv, hc, hold]
          rw [hstep] at hfalse ⊢
          exact ih c r v hfalse hv
        · have hstep : check_repo_changes env (repo :: rest) c =
              (true, dictInsert c repo (get_repo_hash data)) := by
            simp [check_repo_changes, henv, hc, hold]
          rw [hstep] at hfalse
          exact Bool.noConfusion hfalse

/-- On a pass that reports no change, every valid configured repository
ends with its cache entry equal to its recomputed hash. -/
theorem check_repo_changes_false_cache (env : String → Option Json) :
    ∀ (config : List String) (c : List (String × Nat)),
      (check_repo_changes env config c).1 = false →
      ∀ r ∈ config, ∀ d, env r = some d →
        dictGet (check_repo_changes env config c).2 r = some (get_repo_hash d) := by
  intro config
  induction config with
  | nil =>
    intro c _ r hr
    cases hr
  | cons repo rest ih =>
    intro c hfalse r hr d hd
    cases henv : env repo with
    | none =>
      have hstep : check_repo_changes env (repo :: rest) c =
          check_repo_changes env rest c := by
        simp [check_repo_changes, henv]
      rw [hstep] at hfalse ⊢
      rcases List.mem_cons.mp hr with rfl | hr2
      · rw [henv] at hd; exact Option.noConfusion hd
      · exact ih c hfalse r hr2 d hd
    | some data =>
      cases hc : dictGet c repo with
      | none =>
        have hstep : check_repo_changes env (repo :: rest) c =
            check_repo_changes env rest (dictInsert c repo (get_repo_hash data)) := by
          simp [check_repo_changes, henv, hc]
        rw [hstep] at hfalse ⊢
        rcases List.mem_cons.mp hr with rfl | hr2
        · rw [henv] at hd
          cases Option.some.inj hd
          exact check_repo_changes_stable env rest _ r _ hfalse
            (dictGet_dictInsert_self c r _)
        · exact ih _ hfalse r hr2 d hd
      | some old =>
        by_cases hold : old = get_repo_hash data
        · have hstep : check_repo_changes env (repo :: rest) c =
              check_repo_changes env rest c := by
            simp [check_repo_changes, henv, hc, hold]
          rw [hstep] at hfalse ⊢
          rcases List.mem_cons.mp hr with rfl | hr2
          · rw [henv] at hd
            cases Option.some.inj hd
            rw [← hold]
            exact check_repo_changes_stable env rest c r old hfalse hc
          · exact ih c hfalse r hr2 d hd
        · have hstep : check_repo_changes env (repo :: rest) c =
              (true, dictInsert c repo (get_repo_hash data)) := by
            simp [check_repo_changes, henv, hc, hold]
          rw [hstep] at hfalse
          exact Bool.noConfusion hfalse

/-- Content of `a.json` in the change-detector scenarios. -/
def jA : Json := .obj (.cons "k" (.str "v1") .nil)

/-- A variant content differing from `jA` in one value. -/
def jB : Json := .obj (.cons "k" (.str "v2") .nil)

/-- Snapshot in which both configured repositories hold `jA`. -/
def c3EnvChanged : String → Option Json :=
  fun r => if r = "a.json" ∨ r = "b.json" then some jA else none

/-- A cache whose entries for both repositories are stale (hash of `jB`). -/
def c3StaleCache : List (String × Nat) :=
  [("a.json", get_repo_hash jB), ("b.json", get_repo_hash jB)]

/-- C3 counterexample. With two configured repositories both changed, the
early return at the first one leaves the second neither hashed nor its
cache entry updated: the final cache still holds the stale value for
`b.json`, refuting "validates and hashes each configured local repository
... updating the cache for all inspected repositories". -/
theorem c3_early_return_counterexample :
    (check_repo_changes c3EnvChanged ["a.json", "b.json"] c3StaleCache).1 = true ∧
      dictGet (check_repo_changes c3EnvChanged ["a.json", "b.json"] c3StaleCache).2
          "b.json" = some (get_repo_hash jB) ∧
      get_repo_hash jB ≠ get_repo_hash jA := by
  decide

/-- C3, amended. `check_repo_changes` walks the configured local
repositories in order, skipping invalid ones and seeding first
observations without signaling; it returns true exactly when some
configured repository is valid, already cached at entry, and hashes
differently from its cached value - returning at the first such repository
and leaving the remaining ones uninspected; when it returns false, every
valid configured repository ends with its cache entry equal to its
recomputed hash. -/
theorem c3_change_detector_amended :
    (∀ (env : String → Option Json) (config : List String)
        (cache : List (String × Nat)),
      (check_repo_changes env config cache).1 = true ↔
        ∃ r ∈ config, cacheDiffers env cache r) ∧
      ∀ (env : String → Option Json) (config : List String)
        (cache : List (String × Nat)),
        (check_repo_changes env config cache).1 = false →
        ∀ r ∈ config, ∀ d, env r = some d →
          dictGet (check_repo_changes env config cache).2 r =
            some (get_repo_hash d) := by
  constructor
  · intro env config cache
    exact check_repo_changes_true_iff_aux env cache config cache
      (fun r => Or.inl rfl)
  · intro env config cache
    exact check_repo_changes_false_cache env config cache

/-- Snapshot in which the single configured repository is unchanged. -/
def c3EnvSame : String → Option Json :=
  fun r => if r = "a.json" then some jA else none

/-- A cache already holding the up-to-date hash of `a.json`. -/
def c3FreshCache : List (String × Nat) := [("a.json", get_repo_hash jA)]

/-- Witness for C3's amended theorem at a concrete snapshot: a stale cached
entry makes the call return true, and an up-to-date pass returns false with
the cache entry equal to the recomputed hash. -/
theorem c3_change_detector_amended_witness :
    ((check_repo_changes c3EnvChanged ["a.json"] c3StaleCache).1 = true ↔
        ∃ r ∈ ["a.json"], cacheDiffers c3EnvChanged c3StaleCache r) ∧
      ((check_repo_changes c3EnvSame ["a.json"] c3FreshCache).1 = false ∧
        c3EnvSame "a.json" = some jA ∧
        dictGet (check_repo_changes c3EnvSame ["a.json"] c3FreshCache).2 "a.json" =
          some (get_repo_hash jA)) :=
  ⟨c3_change_detector_amended.1 c3EnvChanged ["a.json"] c3StaleCache,
    by decide,
    by decide,
    c3_change_detector_amended.2 c3EnvSame ["a.json"] c3FreshCache (by decide)
      "a.json" (by decide) jA (by decide)⟩

/-! ## C8: the content hash

First, the code-point order used by `sort_keys=True` is a total order. -/

/-- Two characters with the same code point are equal. -/
theorem char_toNat_inj (a b : Char) (h : a.toNat = b.toNat) : a = b := by
  rw [← Char.ofNat_toNat a, ← Char.ofNat_toNat b, h]

/-- `lexLe` is total. -/
theorem lexLe_total : ∀ a b : List Char, lexLe a b = true ∨ lexLe b a = true := by
  intro a
  induction a with
  | nil => intro b; exact Or.inl rfl
  | cons x xs ih =>
    intro b
    cases b with
    | nil => exact Or.inr rfl
    | cons y ys =>
      by_cases hxy : x.toNat < y.toNat
      · left; simp [lexLe, hxy]
      · by_cases hyx : y.toNat < x.toNat
        · right; simp [lexLe, hyx]
        · rcases ih ys with h | h
          · left; simp [lexLe, hxy, hyx, h]
          · right; simp [lexLe, hxy, hyx, h]

/-- `lexLe` is antisymmetric. -/
theorem lexLe_antisymm : ∀ a b : List Char,
    lexLe a b = true → lexLe b a = true → a = b := by
  intro a
  induction a with
  | nil =>
    intro b _ h2
    cases b with
    | nil => rfl
    | cons y ys => exact Bool.noConfusion h2
  | cons x xs ih =>
    intro b h1 h2
    cases b with
    | nil => exact Bool.noConfusion h1
    | cons y ys =>
      by_cases hxy : x.toNat < y.toNat
      · rw [show lexLe (y :: ys) (x :: xs) = false from by
          simp [lexLe, hxy, Nat.lt_asymm hxy]] at h2
        exact Bool.noConfusion h2
      · by_cases hyx : y.toNat < x.toNat
        · rw [show lexLe (x :: xs) (y :: ys) = false from by
            simp [lexLe, hxy, hyx]] at h1
          exact Bool.noConfusion h1
        · have hx : x = y := char_toNat_inj x y (Nat.le_antisymm
            (Nat.not_lt.mp hyx) (Nat.not_lt.mp hxy))
          rw [show lexLe (x :: xs) (y :: ys) = lexLe xs ys from by
            simp [lexLe, hxy, hyx]] at h1
          rw [show lexLe (y :: ys) (x :: xs) = lexLe ys xs from by
            simp [lexLe, hxy, hyx]] at h2
          rw [hx, ih ys h1 h2]

/-- `lexLe` is transitive. -/
theorem lexLe_trans : ∀ a b c : List Char,
    lexLe a b = true → lexLe b c = true → lexLe a c = true := by
  intro a
  induction a with
  | nil => intro b c _ _; rfl
  | cons x xs ih =>
    intro b c h1 h2
    cases b with
    | nil => exact Bool.noConfusion h1
    | cons y ys =>
      cases c with
      | nil => exact Bool.noConfusion h2
      | cons z zs =>
        by_cases hxy : x.toNat < y.toNat <;> by_cases hyz : y.toNat < z.toNat
        · simp [lexLe, Nat.lt_trans hxy hyz]
        · by_cases hzy : z.toNat < y.toNat
          · rw [show lexLe (y :: ys) (z :: zs) = false from by
              simp [lexLe, hyz, hzy]] at h2
            exact Bool.noConfusion h2
          · have : y.toNat = z.toNat :=
              Nat.le_antisymm (Nat.not_lt.mp hzy) (Nat.not_lt.mp hyz)
            simp [lexLe, this ▸ hxy]
        · by_cases hyx : y.toNat < x.toNat
          · rw [show lexLe (x :: xs) (y :: ys) = false from by
              simp [lexLe, hxy, hyx]] at h1
            exact Bool.noConfusion h1
          · have : x.toNat = y.toNat :=
              Nat.le_antisymm (Nat.not_lt.mp hyx) (Nat.not_lt.mp hxy)
            simp [lexLe, this ▸ hyz]
        · by_cases hyx : y.toNat < x.toNat
          · rw [show lexLe (x :: xs) (y :: ys) = false from by
              simp [lexLe, hxy, hyx]] at h1
            exact Bool.noConfusion h1
          · by_cases hzy : z.toNat < y.toNat
            · rw [show lexLe (y :: ys) (z :: zs) = false from by
                simp [lexLe, hyz, hzy]] at h2
              exact Bool.noConfusion h2
            · have hxyE : x.toNat = y.toNat :=
                Nat.le_antisymm (Nat.not_lt.mp hyx) (Nat.not_lt.mp hxy)
              have hyzE : y.toNat = z.toNat :=
                Nat.le_antisymm (Nat.not_lt.mp hzy) (Nat.not_lt.mp hyz)
              rw [show lexLe (x :: xs) (y :: ys) = lexLe xs ys from by
                simp [lexLe, hxy, hyx]] at h1
              rw [show lexLe (y :: ys) (z :: zs) = lexLe ys zs from by
                simp [lexLe, hyz, hzy]] at h2
              have hxz : ¬ x.toNat < z.toNat := by omega
              have hzx : ¬ z.toNat < x.toNat := by omega
              simp [lexLe, hxz, hzx, ih ys zs h1 h2]

/-- `strLe` is total. -/
theorem strLe_total (a b : String) : strLe a b = true ∨ strLe b a = true :=
  lexLe_total a.data b.data

/-- `strLe` is antisymmetric. -/
theorem strLe_antisymm (a b : String) (h1 : strLe a b = true)
    (h2 : strLe b a = true) : a = b := by
  cases a with
  | mk la =>
    cases b with
    | mk lb => exact congrArg String.mk (lexLe_antisymm la lb h1 h2)

/-- `strLe` is transitive. -/
theorem strLe_trans (a b c : String) (h1 : strLe a b = true)
    (h2 : strLe b c = true) : strLe a c = true :=
  lexLe_trans a.data b.data c.data h1 h2

/-- Of two distinct keys, exactly one is `strLe` the other. -/
theorem strLe_false_of (a b : String) (h : strLe a b = true) (hne : a ≠ b) :
    strLe b a = false := by
  cases hb : strLe b a with
  | false => rfl
  | true => exact absurd (strLe_antisymm a b h hb) hne

/-- Inserting two pairs with distinct keys commutes. -/
theorem objInsert_comm (k1 k2 : String) (v1 v2 : Json) (hne : k1 ≠ k2) :
    ∀ o : JObj, objInsert k1 v1 (objInsert k2 v2 o) =
      objInsert k2 v2 (objInsert k1 v1 o)
  | .nil => by
    rcases strLe_total k1 k2 with h12 | h21
    · have h21 := strLe_false_of k1 k2 h12 hne
      simp [objInsert, h12, h21]
    · have h12 := strLe_false_of k2 k1 h21 (Ne.symm hne)
      simp [objInsert, h12, h21]
  | .cons k0 v0 t => by
    have ih := objInsert_comm k1 k2 v1 v2 hne t
    rcases strLe_total k1 k2 with h12 | h21
    · have h21 := strLe_false_of k1 k2 h12 hne
      by_cases s20 : strLe k2 k0 = true
      · have s10 : strLe k1 k0 = true := strLe_trans k1 k2 k0 h12 s20
        simp [objInsert, s20, s10, h12, h21]
      · by_cases s10 : strLe k1 k0 = true
        · simp [objInsert, s20, s10, h12, h21]
        · simp [objInsert, s20, s10, h12, h21, ih]
    · have h12 := strLe_false_of k2 k1 h21 (Ne.symm hne)
      by_cases s10 : strLe k1 k0 = true
      · have s20 : strLe k2 k0 = true := strLe_trans k2 k1 k0 h21 s10
        simp [objInsert, s20, s10, h12, h21]
      · by_cases s20 : strLe k2 k0 = true
        · simp [objInsert, s20, s10, h12, h21]
        · simp [objInsert, s20, s10, h12, h21, ih]

/-! "The same content with object keys reordered": object pair lists may be
permuted (with distinct keys swapped pairwise, as in parsed JSON, where an
object's keys are unique), recursively. -/

mutual

inductive KeyEquiv : Json → Json → Prop where
  | str (s : String) : KeyEquiv (.str s) (.str s)
  | num (n : Int) : KeyEquiv (.num n) (.num n)
  | arr {xs ys : JArr} : ArrEquiv xs ys → KeyEquiv (.arr xs) (.arr ys)
  | obj {kvs1 kvs2 : JObj} : ObjPerm kvs1 kvs2 → KeyEquiv (.obj kvs1) (.obj kvs2)

inductive ArrEquiv : JArr → JArr → Prop where
  | nil : ArrEquiv .nil .nil
  | cons {x y : Json} {xs ys : JArr} :
      KeyEquiv x y → ArrEquiv xs ys → ArrEquiv (.cons x xs) (.cons y ys)

inductive ObjPerm : JObj → JObj → Prop where
  | nil : ObjPerm .nil .nil
  | cons (k : String) {v w : Json} {t1 t2 : JObj} :
      KeyEquiv v w → ObjPerm t1 t2 → ObjPerm (.cons k v t1) (.cons k w t2)
  | swap (k1 k2 : String) (v1 v2 : Json) (t : JObj) (hne : k1 ≠ k2) :
      ObjPerm (.cons k1 v1 (.cons k2 v2 t)) (.cons k2 v2 (.cons k1 v1 t))
  | trans {a b c : JObj} : ObjPerm a b → ObjPerm b c → ObjPerm a c

end

/-- Key-reorder-equivalent documents canonicalize identically (simultaneous
induction over the three equivalence derivations, via the mutual
recursor). -/
theorem canon_keyEquiv {d1 d2 : Json} (h : KeyEquiv d1 d2) : canon d1 = canon d2 := by
  refine @KeyEquiv.rec
    (fun d1 d2 _ => canon d1 = canon d2)
    (fun a1 a2 _ => canonArr a1 = canonArr a2)
    (fun o1 o2 _ => objSort (canonObj o1) = objSort (canonObj o2))
    ?_ ?_ ?_ ?_ ?_ ?_ ?_ ?_ ?_ ?_ d1 d2 h
  · intro s; rfl
  · intro n; rfl
  · intro xs ys a ih; exact congrArg Json.arr ih
  · intro kvs1 kvs2 a ih; exact congrArg Json.obj ih
  · rfl
  · intro x y xs ys a1 a2 ih1 ih2; exact congrArg₂ JArr.cons ih1 ih2
  · rfl
  · intro k v w t1 t2 a1 a2 ih1 ih2; exact congrArg₂ (objInsert k) ih1 ih2
  · intro k1 k2 v1 v2 t hne
    exact objInsert_comm k1 k2 (canon v1) (canon v2) hne (objSort (canonObj t))
  · intro a b c a1 a2 ih1 ih2; exact ih1.trans ih2

/-! Sorted objects and the one-value-changed relation. -/

/-- Key of the first pair of an object. -/
def headKey : JObj → Option String
  | .nil => none
  | .cons k _ _ => some k

/-- Keys pairwise non-decreasing (the shape `sort_keys=True` emits). -/
def objSortedB : JObj → Bool
  | .nil => true
  | .cons k _ t =>
    (match headKey t with
     | none => true
     | some k2 => strLe k k2) && objSortedB t

/-- Inserting below every key of `o` just conses. -/
theorem objInsert_of_le (k : String) (v : Json) (o : JObj)
    (h : ∀ k2, headKey o = some k2 → strLe k k2 = true) :
    objInsert k v o = .cons k v o := by
  cases o with
  | nil => rfl
  | cons k0 v0 t => rw [objInsert, if_pos (h k0 rfl)]

/-- Sorting an already-sorted object is the identity. -/
theorem objSort_eq_of_sorted : ∀ o : JObj, objSortedB o = true → objSort o = o
  | .nil => fun _ => rfl
  | .cons k v t => fun h => by
    rw [objSortedB, Bool.and_eq_true] at h
    rw [objSort, objSort_eq_of_sorted t h.2]
    exact objInsert_of_le k v t (fun k2 hk2 => by rw [hk2] at h; exact h.1)

/-- Two objects with the same keys in the same order and the same values
except at one position, where both values are strings and differ. -/
inductive OneValueDiff : JObj → JObj → Prop where
  | here (k : String) (s1 s2 : String) (t : JObj) (h : s1 ≠ s2) :
      OneValueDiff (.cons k (.str s1) t) (.cons k (.str s2) t)
  | there (k : String) (v : Json) {t1 t2 : JObj} (h : OneValueDiff t1 t2) :
      OneValueDiff (.cons k v t1) (.cons k v t2)

/-- The relation preserves the head key. -/
theorem oneValueDiff_headKey {o1 o2 : JObj} (h : OneValueDiff o1 o2) :
    headKey o1 = headKey o2 := by
  cases h <;> rfl

/-- `canonObj` preserves the head key. -/
theorem headKey_canonObj (o : JObj) : headKey (canonObj o) = headKey o := by
  cases o <;> rfl

/-- `canonObj` preserves sortedness (it only rewrites values). -/
theorem objSortedB_canonObj : ∀ o : JObj, objSortedB (canonObj o) = objSortedB o
  | .nil => rfl
  | .cons k v t => by
    rw [canonObj, objSortedB, objSortedB, headKey_canonObj,
      objSortedB_canonObj t]

/-- The relation preserves sortedness (it only depends on keys). -/
theorem oneValueDiff_sortedB {o1 o2 : JObj} (h : OneValueDiff o1 o2) :
    objSortedB o1 = objSortedB o2 := by
  induction h with
  | here k s1 s2 t _ => rfl
  | there k v ht ih => rw [objSortedB, objSortedB, oneValueDiff_headKey ht, ih]

/-- The relation survives value canonicalization. -/
theorem oneValueDiff_canonObj {o1 o2 : JObj} (h : OneValueDiff o1 o2) :
    OneValueDiff (canonObj o1) (canonObj o2) := by
  induction h with
  | here k s1 s2 t hne => exact .here k s1 s2 (canonObj t) hne
  | there k v ht ih => exact .there k (canon v) ih

/-! Injectivity of the string-literal escaping, and list cancellation. -/

/-- Escaping a character never yields the empty list. -/
theorem escChar_ne_nil (c : Char) : escChar c ≠ [] := by
  rw [escChar]
  by_cases h : c = dq ∨ c = '\\' <;> simp [h]

/-- Escaping is injective. -/
theorem escL_inj : ∀ l1 l2 : List Char, escL l1 = escL l2 → l1 = l2
  | [], [] => fun _ => rfl
  | [], c :: t => fun h => by
    rw [escL, escL] at h
    exact absurd h.symm (by
      intro hc
      exact escChar_ne_nil c (List.append_eq_nil.mp hc).1)
  | c :: t, [] => fun h => by
    rw [escL, escL] at h
    exact absurd h (by
      intro hc
      exact escChar_ne_nil c (List.append_eq_nil.mp hc).1)
  | c1 :: t1, c2 :: t2 => fun h => by
    rw [escL, escL] at h
    by_cases h1 : c1 = dq ∨ c1 = '\\' <;> by_cases h2 : c2 = dq ∨ c2 = '\\'
    · rw [escChar, if_pos h1, escChar, if_pos h2] at h
      simp only [List.cons_append, List.nil_append, List.cons.injEq] at h
      rw [h.2.1, escL_inj t1 t2 h.2.2]
    · rw [escChar, if_pos h1, escChar, if_neg h2] at h
      simp only [List.cons_append, List.nil_append, List.cons.injEq] at h
      exact absurd h.1.symm (by
        intro hc
        exact h2 (Or.inr hc))
    · rw [escChar, if_neg h1, escChar, if_pos h2] at h
      simp only [List.cons_append, List.nil_append, List.cons.injEq] at h
      exact absurd h.1 (by
        intro hc
        exact h1 (Or.inr hc))
    · rw [escChar, if_neg h1, escChar, if_neg h2] at h
      simp only [List.cons_append, List.nil_append, List.cons.injEq] at h
      rw [h.1, escL_inj t1 t2 h.2]

/-- Strings with equal character lists are equal. -/
theorem strData_inj (s t : String) (h : s.data = t.data) : s = t := by
  cases s with
  | mk ls =>
    cases t with
    | mk lt => exact congrArg String.mk h

/-- A quoted string followed by a common suffix determines the string. -/
theorem quote_append_inj (s1 s2 : String) (S : List Char)
    (h : (quoteStr s1).data ++ S = (quoteStr s2).data ++ S) : s1 = s2 := by
  have h1 : (quoteStr s1).data = dq :: (escL s1.data ++ [dq]) := rfl
  have h2 : (quoteStr s2).data = dq :: (escL s2.data ++ [dq]) := rfl
  rw [h1, h2] at h
  simp only [List.cons_append, List.append_assoc, List.cons.injEq] at h
  exact strData_inj s1 s2 (escL_inj _ _ (List.append_cancel_right h.2))

/-- Both sides of the one-value-changed relation are non-empty objects. -/
theorem oneValueDiff_shape {o1 o2 : JObj} (h : OneValueDiff o1 o2) :
    (∃ a b c, o1 = JObj.cons a b c) ∧ ∃ a b c, o2 = JObj.cons a b c := by
  cases h with
  | here k s1 s2 t _ => exact ⟨⟨k, .str s1, t, rfl⟩, k, .str s2, t, rfl⟩
  | there k v hh => exact ⟨⟨k, v, _, rfl⟩, k, v, _, rfl⟩

/-- The raw object serialization separates one-value-changed objects. -/
theorem dumpObjRaw_oneValueDiff {o1 o2 : JObj} (h : OneValueDiff o1 o2) :
    dumpObjRaw o1 ≠ dumpObjRaw o2 := by
  induction h with
  | here k s1 s2 t hne =>
    cases t with
    | nil =>
      intro heq
      have hd : ((quoteStr k ++ ": ") ++ quoteStr s1).data =
          ((quoteStr k ++ ": ") ++ quoteStr s2).data := congrArg String.data heq
      rw [String.data_append, String.data_append] at hd
      have hq := List.append_cancel_left hd
      exact hne (quote_append_inj s1 s2 []
        (by rw [List.append_nil, List.append_nil]; exact hq))
    | cons k2 v2 t2 =>
      intro heq
      have hd : ((((quoteStr k ++ ": ") ++ quoteStr s1) ++ ", ") ++
            dumpObjRaw (.cons k2 v2 t2)).data =
          ((((quoteStr k ++ ": ") ++ quoteStr s2) ++ ", ") ++
            dumpObjRaw (.cons k2 v2 t2)).data := congrArg String.data heq
      simp only [String.data_append, List.append_assoc] at hd
      have hq := List.append_cancel_left (List.append_cancel_left hd)
      exact hne (quote_append_inj s1 s2 _ (by
        simpa only [List.append_assoc] using hq))
  | there k v ht ih =>
    obtain ⟨⟨a1, b1, c1, hc1⟩, a2, b2, c2, hc2⟩ := oneValueDiff_shape ht
    intro heq
    apply ih
    rw [hc1, hc2] at heq ⊢
    have hd : ((((quoteStr k ++ ": ") ++ dumpsPlain v) ++ ", ") ++
          dumpObjRaw (.cons a1 b1 c1)).data =
        ((((quoteStr k ++ ": ") ++ dumpsPlain v) ++ ", ") ++
          dumpObjRaw (.cons a2 b2 c2)).data := congrArg String.data heq
    rw [String.data_append, String.data_append] at hd
    exact strData_inj _ _ (List.append_cancel_left hd)

/-- `dumps` separates sorted objects that differ in exactly one (string)
value. -/
theorem dumps_obj_ne (o1 o2 : JObj) (h : OneValueDiff o1 o2)
    (hs : objSortedB o1 = true) : dumps (.obj o1) ≠ dumps (.obj o2) := by
  have hs2 : objSortedB o2 = true := by
    rw [← oneValueDiff_sortedB h]; exact hs
  have hsc1 : objSortedB (canonObj o1) = true := by
    rw [objSortedB_canonObj]; exact hs
  have hsc2 : objSortedB (canonObj o2) = true := by
    rw [objSortedB_canonObj]; exact hs2
  have e1 : dumps (.obj o1) = ("\x7b" ++ dumpObjRaw (canonObj o1)) ++ "\x7d" := by
    calc dumps (.obj o1) = dumpsPlain (.obj (objSort (canonObj o1))) := rfl
      _ = dumpsPlain (.obj (canonObj o1)) := by rw [objSort_eq_of_sorted _ hsc1]
      _ = ("\x7b" ++ dumpObjRaw (canonObj o1)) ++ "\x7d" := rfl
  have e2 : dumps (.obj o2) = ("\x7b" ++ dumpObjRaw (canonObj o2)) ++ "\x7d" := by
    calc dumps (.obj o2) = dumpsPlain (.obj (objSort (canonObj o2))) := rfl
      _ = dumpsPlain (.obj (canonObj o2)) := by rw [objSort_eq_of_sorted _ hsc2]
      _ = ("\x7b" ++ dumpObjRaw (canonObj o2)) ++ "\x7d" := rfl
  intro heq
  rw [e1, e2] at heq
  have hd := congrArg String.data heq
  rw [String.data_append, String.data_append, String.data_append,
    String.data_append] at hd
  exact dumpObjRaw_oneValueDiff (oneValueDiff_canonObj h)
    (strData_inj _ _
      (List.append_cancel_left (List.append_cancel_right hd)))

/-! The digest has a finite range, so the universal form of the
one-value-changed property cannot hold of any data set this large. -/

/-- The packed digest is a 128-bit value. -/
theorem packDigest_lt (a b c d : Nat) : packDigest a b c d < 2 ^ 128 := by
  simp only [packDigest, w32]
  omega

/-- Every MD5 digest is a 128-bit value. -/
theorem md5_lt (m : List Nat) : md5 m < 2 ^ 128 :=
  packDigest_lt _ _ _ _

/-- A string of `n` repetitions of `a`. -/
def unaryStr (n : Nat) : String := String.mk (List.replicate n 'a')

/-- A family of single-key objects pairwise differing in one string
value. -/
def oneDiffFam (n : Nat) : Json := .obj (.cons "k" (.str (unaryStr n)) .nil)

/-- Distinct indices give distinct unary strings. -/
theorem unaryStr_inj (m n : Nat) (h : m ≠ n) : unaryStr m ≠ unaryStr n := by
  intro he
  apply h
  have hlen : (unaryStr m).data.length = (unaryStr n).data.length := by rw [he]
  simpa [unaryStr] using hlen

/-- Two parsed documents that are objects differing in exactly one (string)
value. -/
def DifferOneValue (d1 d2 : Json) : Prop :=
  ∃ o1 o2, d1 = .obj o1 ∧ d2 = .obj o2 ∧ OneValueDiff o1 o2

/-- C8 counterexample. The claim's second half - for data differing in one
value the digests always differ - is refuted by pigeonhole: MD5 has only
`2^128` digests, so among the infinitely many single-key objects (which
pairwise differ in one value) two must collide. -/
theorem c8_md5_not_injective :
    ¬ ∀ d1 d2 : Json, DifferOneValue d1 d2 →
      get_repo_hash d1 ≠ get_repo_hash d2 := by
  intro hall
  obtain ⟨m, n, hmn, he⟩ := Finite.exists_ne_map_eq_of_infinite
    (fun n : Nat => (⟨get_repo_hash (oneDiffFam n), md5_lt _⟩ : Fin (2 ^ 128)))
  exact hall (oneDiffFam m) (oneDiffFam n)
    ⟨_, _, rfl, rfl, .here "k" _ _ .nil (unaryStr_inj m n hmn)⟩
    (congrArg Fin.val he)

/-- C8, amended. Key-reorder-equivalent parsed data (the same content with
object keys permuted, recursively) hashes identically; changing exactly one
string value of a sorted-key object changes the canonical serialization
(so any collision is a collision of MD5 itself, not of the
canonicalization); and on the example contents the MD5 digests do
differ. -/
theorem c8_hash_round_trip_amended :
    (∀ d1 d2 : Json, KeyEquiv d1 d2 → get_repo_hash d1 = get_repo_hash d2) ∧
      (∀ o1 o2 : JObj, OneValueDiff o1 o2 → objSortedB o1 = true →
        dumps (.obj o1) ≠ dumps (.obj o2)) ∧
      get_repo_hash jA ≠ get_repo_hash jB := by
  refine ⟨?_, dumps_obj_ne, by decide⟩
  intro d1 d2 h
  show md5 (strBytes (dumpsPlain (canon d1))) = md5 (strBytes (dumpsPlain (canon d2)))
  rw [canon_keyEquiv h]

/-- A two-key object and the same object with its keys swapped. -/
def jOrdered : Json := .obj (.cons "a" (.num 1) (.cons "b" (.num 2) .nil))

/-- `jOrdered` with the two pairs exchanged. -/
def jSwapped : Json := .obj (.cons "b" (.num 2) (.cons "a" (.num 1) .nil))

/-- Witness for C8's amended theorem: the reordered two-key objects hash
identically, and the one-value-changed pair serializes differently. -/
theorem c8_hash_round_trip_amended_witness :
    (KeyEquiv jOrdered jSwapped ∧
        get_repo_hash jOrdered = get_repo_hash jSwapped) ∧
      (OneValueDiff (.cons "k" (.str "v1") .nil) (.cons "k" (.str "v2") .nil) ∧
        objSortedB (.cons "k" (.str "v1") .nil) = true ∧
        dumps (.obj (.cons "k" (.str "v1") .nil)) ≠
          dumps (.obj (.cons "k" (.str "v2") .nil))) :=
  ⟨⟨.obj (.swap "a" "b" (.num 1) (.num 2) .nil (by decide)),
    c8_hash_round_trip_amended.1 jOrdered jSwapped
      (.obj (.swap "a" "b" (.num 1) (.num 2) .nil (by decide)))⟩,
    ⟨.here "k" "v1" "v2" .nil (by decide), by decide,
      c8_hash_round_trip_amended.2.1 (.cons "k" (.str "v1") .nil)
        (.cons "k" (.str "v2") .nil)
        (.here "k" "v1" "v2" .nil (by decide)) (by decide)⟩⟩

end Bashmarks
